import Mathlib

/-!
Verification of `lib/resolve-extra-downloads.py`, the dependency-closure
resolver: it parses a dependency/selection dump and a package-metadata
stream, computes the transitive closure of compile-time dependencies of
the selected set, and emits the extra source directories to download,
after folding the reserved `/host` suffix and filtering by source
availability.

Python strings are sequences of code points; they are embedded as
`List Char` (`Str`).  Python `set`s of strings become `Finset Str`;
the Python `dict` `compile_deps` becomes an association list where
assignment prepends an entry and lookup takes the first match (so a
later assignment for the same key wins, exactly as in a `dict`).  The
worklist of `bfs_closure` (a Python list used as a stack via
`append`/`pop`) becomes a `List Str` used as a stack via cons/head;
a fuel argument, defined so that it is provably never exhausted, makes
the `while` loop a total function.  The two anchored regular
expressions of `packages_with_source` are translated into explicit
prefix-matching functions, with the greedy backtracking of
`(.+)/Makefile` rendered as the search for the largest split point.
-/

abbrev Str := List Char

/-- Code points of a string literal, used to write down concrete inputs. -/
def str (s : String) : Str := s.toList

/-- Python `str.strip` / `str.split()` whitespace test. -/
def wsChar (c : Char) : Bool := c.isWhitespace

/-- Python `line.strip()`: remove leading and trailing whitespace. -/
def trimC (s : Str) : Str := ((s.dropWhile wsChar).reverse.dropWhile wsChar).reverse

/-- Python `s.startswith(p)` (also the anchored part of `re.match`). -/
def listStarts : Str → Str → Bool
  | [], _ => true
  | _ :: _, [] => false
  | p :: ps, c :: cs => p == c && listStarts ps cs

/-- Split at the first colon, if any: the engine of Python `s.split(":", 1)`. -/
def breakAtColon : Str → Option (Str × Str)
  | [] => none
  | c :: cs =>
    if c == ':' then some ([], cs)
    else
      match breakAtColon cs with
      | some (l, r) => some (c :: l, r)
      | none => none

/-- Python `s.split(":", 1)`: one part when there is no colon, two parts otherwise. -/
def splitColonOnceC (s : Str) : List Str :=
  match breakAtColon s with
  | none => [s]
  | some (l, r) => [l, r]

/-- Python `s.split()`: split on whitespace runs, dropping empty fields. -/
def splitWSC (s : Str) : List Str :=
  (s.foldr
    (fun c acc =>
      if wsChar c then [] :: acc
      else
        match acc with
        | [] => [[c]]
        | g :: gs => (c :: g) :: gs)
    [[]]).filter (fun g => !g.isEmpty)

/-- Python `s.endswith(p)`. -/
def endsW (p s : Str) : Bool := listStarts p.reverse s.reverse

/-- Python string comparison: lexicographic on code points. -/
def lexLe : Str → Str → Bool
  | [], _ => true
  | _ :: _, [] => false
  | a :: as, b :: bs => if a == b then lexLe as bs else decide (a < b)

/-- The ordering used by Python `sorted` on strings, as a relation. -/
def strLe (a b : Str) : Prop := lexLe a b = true

instance : DecidableRel strLe := fun a b => inferInstanceAs (Decidable (lexLe a b = true))

theorem lexLe_trans : ∀ {a b c : Str}, lexLe a b = true → lexLe b c = true → lexLe a c = true := by
  intro a
  induction a with
  | nil => intro b c _ _; rfl
  | cons x xs ih =>
    intro b c h1 h2
    cases b with
    | nil => simp [lexLe] at h1
    | cons y ys =>
      cases c with
      | nil => simp [lexLe] at h2
      | cons z zs =>
        simp only [lexLe, beq_iff_eq] at h1 h2 ⊢
        by_cases hxy : x = y
        · subst hxy
          simp only [if_pos rfl] at h1
          by_cases hxz : x = z
          · subst hxz
            simp only [if_pos rfl] at h2 ⊢
            exact ih h1 h2
          · simp only [if_neg hxz] at h2 ⊢
            exact h2
        · simp only [if_neg hxy, decide_eq_true_eq] at h1
          by_cases hyz : y = z
          · have hxz : x ≠ z := hyz ▸ hxy
            simp only [if_neg hxz, decide_eq_true_eq]
            exact hyz ▸ h1
          · simp only [if_neg hyz, decide_eq_true_eq] at h2
            have hxz : x ≠ z := ne_of_lt (lt_trans h1 h2)
            simp only [if_neg hxz, decide_eq_true_eq]
            exact lt_trans h1 h2

theorem lexLe_total : ∀ (a b : Str), lexLe a b = true ∨ lexLe b a = true := by
  intro a
  induction a with
  | nil => intro b; left; rfl
  | cons x xs ih =>
    intro b
    cases b with
    | nil => right; rfl
    | cons y ys =>
      simp only [lexLe, beq_iff_eq]
      by_cases hxy : x = y
      · subst hxy
        simp only [if_pos rfl]
        exact ih ys
      · have hyx : y ≠ x := fun h => hxy h.symm
        simp only [if_neg hxy, if_neg hyx, decide_eq_true_eq]
        rcases lt_or_gt_of_ne hxy with h | h
        · left; exact h
        · right; exact h

theorem lexLe_antisymm : ∀ {a b : Str}, lexLe a b = true → lexLe b a = true → a = b := by
  intro a
  induction a with
  | nil =>
    intro b h1 h2
    cases b with
    | nil => rfl
    | cons y ys => simp [lexLe] at h2
  | cons x xs ih =>
    intro b h1 h2
    cases b with
    | nil => simp [lexLe] at h1
    | cons y ys =>
      simp only [lexLe, beq_iff_eq] at h1 h2
      by_cases hxy : x = y
      · subst hxy
        simp only [if_pos rfl] at h1 h2
        rw [ih h1 h2]
      · have hyx : y ≠ x := fun h => hxy h.symm
        simp only [if_neg hxy, if_neg hyx, decide_eq_true_eq] at h1 h2
        exact absurd h2 (not_lt_of_gt h1)

instance : IsTrans Str strLe := ⟨fun _ _ _ => lexLe_trans⟩

instance : IsTotal Str strLe := ⟨lexLe_total⟩

instance : IsAntisymm Str strLe := ⟨fun _ _ => lexLe_antisymm⟩

/-- The Python dict `compile_deps`: source dir to its direct compile deps. -/
abbrev Dict := List (Str × List Str)

/-- Python `compile_deps.get(node, set())`: first (most recent) entry or empty. -/
def dictGet (d : Dict) (k : Str) : List Str :=
  match d.find? (fun p => p.1 == k) with
  | some p => p.2
  | none => []

/-- Python `compile_deps[node]` as a partial lookup: the recorded entry, if any. -/
def dictLookup (d : Dict) (k : Str) : Option (List Str) :=
  (d.find? (fun p => p.1 == k)).map Prod.snd

/-- The keys of `compile_deps`. -/
def depsKeys (d : Dict) : Finset Str := (d.map Prod.fst).toFinset

/-- Marker of selected-package lines in the dependency dump. -/
def selMarker : Str := str "SELECTED:"

/-- Marker of dependency lines in the dependency dump. -/
def depsMarker : Str := str "DEPS:"

/-- One iteration of the loop in `parse_deps`, processing a single raw line. -/
def parseDepsStep (acc : Dict × Finset Str) (rawLine : Str) : Dict × Finset Str :=
  let line := trimC rawLine
  if listStarts selMarker line then
    (acc.1, insert (line.drop 9) acc.2)
  else if listStarts depsMarker line then
    match splitColonOnceC (line.drop 5) with
    | [node, rest] => ((node, splitWSC rest) :: acc.1, acc.2)
    | _ => acc
  else acc

/-- `parse_deps`: fold the dependency dump into `(compile_deps, selected)`. -/
def parse_deps (lines : List Str) : Dict × Finset Str :=
  lines.foldl parseDepsStep ([], ∅)

/-- Weight of the not-yet-expanded dict keys; it bounds the pending loop work. -/
def pendingWeight (deps : Dict) (closure : Finset Str) : Nat :=
  ((depsKeys deps).filter (fun k => k ∉ closure)).sum (fun k => (dictGet deps k).length)

/-- The `while queue:` loop of `bfs_closure`.  The fuel argument only makes the
loop a total function: it is provably never exhausted when it starts at
`initialFuel`.  The Python list used as a stack (`append`/`pop` at the end)
is a cons/head stack here. -/
def bfsAux (deps : Dict) : Nat → Finset Str → List Str → Finset Str
  | _, closure, [] => closure
  | 0, closure, _ :: _ => closure
  | fuel + 1, closure, node :: rest =>
    if node ∈ closure then
      bfsAux deps fuel closure rest
    else
      let closure' := insert node closure
      bfsAux deps fuel closure'
        (((dictGet deps node).filter (fun dep => decide (dep ∉ closure'))) ++ rest)

/-- Fuel that provably outlasts the worklist loop. -/
def initialFuel (deps : Dict) (queue : List Str) : Nat :=
  queue.length + pendingWeight deps ∅

/-- A canonical enumeration of a finite set of strings in ascending order
(Python `sorted`; also used to seed the worklist from the selected set,
whose enumeration order is irrelevant to the resulting closure). -/
def sortFinset (s : Finset Str) : List Str :=
  Quot.liftOn s.val (fun l => l.insertionSort strLe)
    (fun l1 l2 h =>
      List.eq_of_perm_of_sorted
        (((l1.perm_insertionSort strLe).trans h).trans (l2.perm_insertionSort strLe).symm)
        (l1.sorted_insertionSort strLe) (l2.sorted_insertionSort strLe))

/-- `bfs_closure(selected, compile_deps)`: transitive closure of compile deps. -/
def bfs_closure (selected : Finset Str) (deps : Dict) : Finset Str :=
  let queue := sortFinset selected
  bfsAux deps (initialFuel deps queue) ∅ queue

/-- Literal part of the pattern `Source-Makefile: package/(.+)/Makefile`. -/
def mkLead : Str := str "Source-Makefile: package/"

/-- Trailing literal of the pattern `Source-Makefile: package/(.+)/Makefile`. -/
def mkTail : Str := str "/Makefile"

/-- Literal part of the pattern `Source: (\S+)`. -/
def srcLead : Str := str "Source: "

/-- Is `i` a valid end for the greedy group `(.+)` of the makefile pattern:
at least one character, followed by `/Makefile`, and no newline inside
(`.` does not match a newline). -/
def goodIdx (rest : Str) (i : Nat) : Bool :=
  decide (1 ≤ i) && listStarts mkTail (rest.drop i) && !((rest.take i).contains '\n')

/-- Greedy matching of `(.+)/Makefile`: the largest valid split point. -/
def greedyIdx (rest : Str) : Option Nat :=
  ((List.range (rest.length + 1)).reverse).find? (goodIdx rest)

/-- `re.match(r"Source-Makefile: package/(.+)/Makefile", line)`, returning
the captured group. -/
def matchSourceMakefile (line : Str) : Option Str :=
  if listStarts mkLead line then
    let rest := line.drop mkLead.length
    match greedyIdx rest with
    | some i => some (rest.take i)
    | none => none
  else none

/-- `re.match(r"Source: (\S+)", line)` as a test (the group is unused). -/
def matchSource (line : Str) : Bool :=
  listStarts srcLead line &&
    (match line.drop srcLead.length with
     | c :: _ => !c.isWhitespace
     | [] => false)

/-- One iteration of the loop in `packages_with_source`: the state is
`(has_source, cur)`. -/
def pwsStep (acc : Finset Str × Option Str) (line : Str) : Finset Str × Option Str :=
  match matchSourceMakefile line with
  | some name => (acc.1, some name)
  | none =>
    if matchSource line then
      match acc.2 with
      | some cur => (insert cur acc.1, acc.2)
      | none => acc
    else acc

/-- `packages_with_source`: packages with a declared downloadable source. -/
def packages_with_source (lines : List Str) : Finset Str :=
  (lines.foldl pwsStep (∅, none)).1

/-- The reserved host-variant suffix. -/
def hostSuffix : Str := str "/host"

/-- The fold `dl = d[:-5] if d.endswith("/host") else d` from `main`. -/
def foldHost (d : Str) : Str :=
  if endsW hostSuffix d then d.take (d.length - 5) else d

/-- The output loop of `main`: iterate over `sorted(closure - selected)`,
fold the host suffix, filter by source availability, and collect the
printed identifiers in order. -/
def computeExtras (closure selected has_source : Finset Str) : List Str :=
  (sortFinset (closure \ selected)).filterMap (fun d =>
    let dl := foldHost d
    if dl ∈ has_source then some dl else none)

/-- Reachability along dependency edges: `ReachableFrom deps x y` holds when
`y` can be reached from `x` by following recorded dependency edges. -/
inductive ReachableFrom (deps : Dict) : Str → Str → Prop
  | refl (x : Str) : ReachableFrom deps x x
  | tail {x y z : Str} : ReachableFrom deps x y → z ∈ dictGet deps y → ReachableFrom deps x z

/-- One step of the reference fold for last-write-wins: keep the dependency
list of the latest well-formed `DEPS:` line for `node` seen so far. -/
def lastDepsStep (node : Str) (acc : Option (List Str)) (rawLine : Str) : Option (List Str) :=
  let line := trimC rawLine
  if listStarts selMarker line then acc
  else if listStarts depsMarker line then
    match splitColonOnceC (line.drop 5) with
    | [k, rest] => if k == node then some (splitWSC rest) else acc
    | _ => acc
  else acc

/-- The dependency list of the last well-formed `DEPS:` line for `node`
in the dump, if any: the reference value for the last-write-wins claim. -/
def lastDepsFor (node : Str) (lines : List Str) : Option (List Str) :=
  lines.foldl (lastDepsStep node) none

/-! ### Dictionary and weight lemmas -/

theorem dictGet_eq_nil_of_not_key {deps : Dict} {k : Str} (h : k ∉ depsKeys deps) :
    dictGet deps k = [] := by
  unfold dictGet
  cases hf : deps.find? (fun p => p.1 == k) with
  | none => rfl
  | some p =>
    exfalso
    have hmem := List.mem_of_find?_eq_some hf
    have hpk := List.find?_some hf
    apply h
    unfold depsKeys
    simp only [List.mem_toFinset, List.mem_map]
    exact ⟨p, hmem, by simpa using hpk⟩

theorem dictLookup_cons (k : Str) (v : List Str) (d : Dict) (node : Str) :
    dictLookup ((k, v) :: d) node = if k == node then some v else dictLookup d node := by
  unfold dictLookup
  cases h : (k == node) with
  | true => simp [List.find?_cons_of_pos, h]
  | false => simp [List.find?_cons_of_neg, h]

theorem pendingWeight_insert_of_key {deps : Dict} {closure : Finset Str} {node : Str}
    (hk : node ∈ depsKeys deps) (hc : node ∉ closure) :
    pendingWeight deps closure =
      (dictGet deps node).length + pendingWeight deps (insert node closure) := by
  unfold pendingWeight
  have hfilter : (depsKeys deps).filter (fun k => k ∉ insert node closure) =
      ((depsKeys deps).filter (fun k => k ∉ closure)).erase node := by
    ext a
    simp only [Finset.mem_filter, Finset.mem_erase, Finset.mem_insert]
    constructor
    · rintro ⟨ha, hno⟩
      exact ⟨fun h => hno (Or.inl h), ha, fun h => hno (Or.inr h)⟩
    · rintro ⟨hne, ha, hno⟩
      exact ⟨ha, fun h => h.elim hne hno⟩
  rw [hfilter]
  have hmem : node ∈ (depsKeys deps).filter (fun k => k ∉ closure) :=
    Finset.mem_filter.mpr ⟨hk, hc⟩
  exact (Finset.add_sum_erase _ _ hmem).symm

theorem pendingWeight_insert_of_not_key {deps : Dict} (closure : Finset Str) {node : Str}
    (hk : node ∉ depsKeys deps) :
    pendingWeight deps (insert node closure) = pendingWeight deps closure := by
  unfold pendingWeight
  congr 1
  ext a
  simp only [Finset.mem_filter, Finset.mem_insert, and_congr_right_iff]
  intro ha
  have hne : a ≠ node := fun h => hk (h ▸ ha)
  constructor
  · intro h hc
    exact h (Or.inr hc)
  · intro h hor
    exact hor.elim (fun h1 => hne h1) h

/-- Work accounting for one expansion step of the worklist loop: the new
queue plus the weight of the remaining unexpanded keys shrinks. -/
theorem bfs_account (deps : Dict) (closure : Finset Str) (node : Str) (rest : List Str)
    (hc : node ∉ closure) :
    (((dictGet deps node).filter (fun dep => decide (dep ∉ insert node closure))) ++ rest).length
        + pendingWeight deps (insert node closure)
      ≤ rest.length + pendingWeight deps closure := by
  rw [List.length_append]
  by_cases hk : node ∈ depsKeys deps
  · rw [pendingWeight_insert_of_key hk hc]
    have hfl := List.length_filter_le
      (fun dep => decide (dep ∉ insert node closure)) (dictGet deps node)
    omega
  · rw [pendingWeight_insert_of_not_key closure hk, dictGet_eq_nil_of_not_key hk]
    simp

/-! ### Worklist loop lemmas -/

theorem subset_bfsAux (deps : Dict) :
    ∀ (fuel : Nat) (closure : Finset Str) (queue : List Str),
      closure ⊆ bfsAux deps fuel closure queue := by
  intro fuel
  induction fuel with
  | zero =>
    intro closure queue
    cases queue <;> simp [bfsAux]
  | succ n ih =>
    intro closure queue
    cases queue with
    | nil => simp [bfsAux]
    | cons node rest =>
      by_cases h : node ∈ closure
      · simpa [bfsAux, h] using ih closure rest
      · simp only [bfsAux, if_neg h]
        exact subset_trans (Finset.subset_insert node closure) (ih _ _)

theorem ReachableFrom.head {deps : Dict} {y z w : Str} (hz : z ∈ dictGet deps y)
    (h : ReachableFrom deps z w) : ReachableFrom deps y w := by
  induction h with
  | refl => exact ReachableFrom.tail (ReachableFrom.refl y) hz
  | tail _ h2 ih => exact ReachableFrom.tail ih h2

theorem bfsAux_sound (deps : Dict) :
    ∀ (fuel : Nat) (closure : Finset Str) (queue : List Str) (x : Str),
      x ∈ bfsAux deps fuel closure queue →
      x ∈ closure ∨ ∃ q ∈ queue, ReachableFrom deps q x := by
  intro fuel
  induction fuel with
  | zero =>
    intro closure queue x hx
    cases queue <;> simp [bfsAux] at hx <;> exact Or.inl hx
  | succ n ih =>
    intro closure queue x hx
    cases queue with
    | nil =>
      simp [bfsAux] at hx
      exact Or.inl hx
    | cons node rest =>
      by_cases h : node ∈ closure
      · rw [bfsAux, if_pos h] at hx
        rcases ih closure rest x hx with hc | ⟨q, hq, hr⟩
        · exact Or.inl hc
        · exact Or.inr ⟨q, List.mem_cons_of_mem node hq, hr⟩
      · rw [bfsAux, if_neg h] at hx
        rcases ih _ _ x hx with hc | ⟨q, hq, hr⟩
        · rcases Finset.mem_insert.mp hc with heq | hc
          · exact Or.inr ⟨node, List.mem_cons_self _ _, by rw [heq]; exact ReachableFrom.refl node⟩
          · exact Or.inl hc
        · rcases List.mem_append.mp hq with hq | hq
          · have hqdep : q ∈ dictGet deps node := (List.mem_filter.mp hq).1
            exact Or.inr ⟨node, List.mem_cons_self _ _, ReachableFrom.head hqdep hr⟩
          · exact Or.inr ⟨q, List.mem_cons_of_mem node hq, hr⟩

/-- With enough fuel the result no longer depends on the fuel: the loop
finishes within `queue.length + pendingWeight deps closure` iterations. -/
theorem bfsAux_fuel_stable (deps : Dict) :
    ∀ (fuel1 fuel2 : Nat) (closure : Finset Str) (queue : List Str),
      queue.length + pendingWeight deps closure ≤ fuel1 →
      queue.length + pendingWeight deps closure ≤ fuel2 →
      bfsAux deps fuel1 closure queue = bfsAux deps fuel2 closure queue := by
  intro fuel1
  induction fuel1 with
  | zero =>
    intro fuel2 closure queue h1 _
    cases queue with
    | nil => cases fuel2 <;> rfl
    | cons node rest => simp [List.length_cons] at h1
  | succ n ih =>
    intro fuel2 closure queue h1 h2
    cases queue with
    | nil => cases fuel2 <;> rfl
    | cons node rest =>
      cases fuel2 with
      | zero => simp [List.length_cons] at h2
      | succ m =>
        simp only [List.length_cons] at h1 h2
        by_cases h : node ∈ closure
        · rw [bfsAux, bfsAux, if_pos h, if_pos h]
          exact ih m closure rest (by omega) (by omega)
        · rw [bfsAux, bfsAux, if_neg h, if_neg h]
          have hacc := bfs_account deps closure node rest h
          exact ih m _ _ (by omega) (by omega)

theorem bfsAux_complete (deps : Dict) :
    ∀ (fuel : Nat) (closure : Finset Str) (queue : List Str),
      queue.length + pendingWeight deps closure ≤ fuel →
      (∀ c ∈ closure, ∀ d ∈ dictGet deps c, d ∈ closure ∨ d ∈ queue) →
      (∀ q ∈ queue, q ∈ bfsAux deps fuel closure queue) ∧
        (∀ x ∈ bfsAux deps fuel closure queue, ∀ d ∈ dictGet deps x,
          d ∈ bfsAux deps fuel closure queue) := by
  intro fuel
  induction fuel with
  | zero =>
    intro closure queue h1 hinv
    cases queue with
    | nil =>
      refine ⟨by simp, ?_⟩
      intro x hx d hd
      simp only [bfsAux] at hx ⊢
      rcases hinv x hx d hd with h | h
      · exact h
      · simp at h
    | cons node rest => simp [List.length_cons] at h1
  | succ n ih =>
    intro closure queue h1 hinv
    cases queue with
    | nil =>
      refine ⟨by simp, ?_⟩
      intro x hx d hd
      simp only [bfsAux] at hx ⊢
      rcases hinv x hx d hd with h | h
      · exact h
      · simp at h
    | cons node rest =>
      simp only [List.length_cons] at h1
      by_cases h : node ∈ closure
      · have hinv' : ∀ c ∈ closure, ∀ d ∈ dictGet deps c, d ∈ closure ∨ d ∈ rest := by
          intro c hc d hd
          rcases hinv c hc d hd with hd1 | hd1
          · exact Or.inl hd1
          · rcases List.mem_cons.mp hd1 with heq | hd2
            · exact Or.inl (heq ▸ h)
            · exact Or.inr hd2
        obtain ⟨ihq, ihc⟩ := ih closure rest (by omega) hinv'
        rw [bfsAux, if_pos h]
        refine ⟨?_, ihc⟩
        intro q hq
        rcases List.mem_cons.mp hq with heq | hq2
        · exact subset_bfsAux deps n closure rest (heq ▸ h)
        · exact ihq q hq2
      · have hacc := bfs_account deps closure node rest h
        have hinv' : ∀ c ∈ insert node closure, ∀ d ∈ dictGet deps c,
            d ∈ insert node closure ∨
              d ∈ ((dictGet deps node).filter (fun dep => decide (dep ∉ insert node closure)))
                  ++ rest := by
          intro c hc d hd
          rcases Finset.mem_insert.mp hc with heq | hc2
          · subst heq
            by_cases hdc : d ∈ insert c closure
            · exact Or.inl hdc
            · refine Or.inr (List.mem_append_left _ ?_)
              exact List.mem_filter.mpr ⟨hd, by simpa using hdc⟩
          · rcases hinv c hc2 d hd with hd1 | hd1
            · exact Or.inl (Finset.mem_insert_of_mem hd1)
            · rcases List.mem_cons.mp hd1 with heq2 | hd2
              · exact Or.inl (heq2 ▸ Finset.mem_insert_self node closure)
              · exact Or.inr (List.mem_append_right _ hd2)
        obtain ⟨ihq, ihc⟩ := ih (insert node closure) _ (by omega) hinv'
        rw [bfsAux, if_neg h]
        refine ⟨?_, ihc⟩
        intro q hq
        rcases List.mem_cons.mp hq with heq | hq2
        · exact subset_bfsAux deps n _ _ (heq ▸ Finset.mem_insert_self node closure)
        · exact ihq q (List.mem_append_right _ hq2)

/-! ### Sorted enumeration lemmas -/

theorem mem_sortFinset (s : Finset Str) (x : Str) : x ∈ sortFinset s ↔ x ∈ s := by
  rcases s with ⟨val, nodup⟩
  induction val using Quot.inductionOn with
  | h l =>
    show x ∈ l.insertionSort strLe ↔ _
    rw [List.Perm.mem_iff (l.perm_insertionSort strLe)]
    simp [Finset.mem_def]

theorem sortFinset_sorted (s : Finset Str) : List.Sorted strLe (sortFinset s) := by
  rcases s with ⟨val, nodup⟩
  induction val using Quot.inductionOn with
  | h l => exact l.sorted_insertionSort strLe

theorem sortFinset_nodup (s : Finset Str) : (sortFinset s).Nodup := by
  rcases s with ⟨val, nodup⟩
  induction val using Quot.inductionOn with
  | h l => exact (List.Perm.nodup_iff (l.perm_insertionSort strLe)).mpr nodup

/-! ### Claims C2 and C3: the closure engine -/

/-- C2: `bfs_closure(selected, compile_deps)` is exactly the set of nodes
reachable from the selected set along dependency edges: membership is
equivalent to reachability from some seed, every seed is in the closure,
the closure is closed under recorded dependency edges (so identifiers
referenced as dependencies are included), and an identifier that is not a
key of the relation has no outgoing edges (it is a leaf). -/
theorem bfs_closure_computes_reachable_set (deps : Dict) (selected : Finset Str) :
    (∀ x, x ∈ bfs_closure selected deps ↔ ∃ s ∈ selected, ReachableFrom deps s x)
    ∧ selected ⊆ bfs_closure selected deps
    ∧ (∀ x ∈ bfs_closure selected deps, ∀ d ∈ dictGet deps x, d ∈ bfs_closure selected deps)
    ∧ (∀ x, x ∉ depsKeys deps → dictGet deps x = []) := by
  have hcomp := bfsAux_complete deps (initialFuel deps (sortFinset selected)) ∅
    (sortFinset selected) (le_refl _)
    (by intro c hc; exact absurd hc (Finset.not_mem_empty c))
  have hclosed : ∀ x ∈ bfs_closure selected deps, ∀ d ∈ dictGet deps x,
      d ∈ bfs_closure selected deps := hcomp.2
  have hseed : ∀ q ∈ selected, q ∈ bfs_closure selected deps := by
    intro q hq
    exact hcomp.1 q ((mem_sortFinset selected q).mpr hq)
  refine ⟨?_, hseed, hclosed, fun x hx => dictGet_eq_nil_of_not_key hx⟩
  intro x
  constructor
  · intro hx
    rcases bfsAux_sound deps _ _ _ x hx with hc | ⟨q, hq, hr⟩
    · exact absurd hc (Finset.not_mem_empty x)
    · exact ⟨q, (mem_sortFinset selected q).mp hq, hr⟩
  · rintro ⟨s, hs, hr⟩
    induction hr with
    | refl => exact hseed s hs
    | tail _ h2 ih => exact hclosed _ ih _ h2

/-- Witness for C2 at a concrete graph: `b` is a dependency of the reachable
seed `a`, hence in the closure. -/
theorem bfs_closure_computes_reachable_set_witness :
    str "b" ∈ bfs_closure {str "a"} [(str "a", [str "b"])] :=
  (bfs_closure_computes_reachable_set [(str "a", [str "b"])] {str "a"}).2.2.1
    (str "a") (by decide) (str "b") (by decide)

/-- C3: the worklist loop terminates for every finite relation — cyclic ones
included — because each node is expanded at most once: the loop completes
within `initialFuel` iterations, and giving it any more fuel cannot change
the outcome. -/
theorem bfs_closure_terminates (deps : Dict) (selected : Finset Str) (fuel : Nat)
    (h : initialFuel deps (sortFinset selected) ≤ fuel) :
    bfsAux deps fuel ∅ (sortFinset selected) = bfs_closure selected deps :=
  bfsAux_fuel_stable deps fuel (initialFuel deps (sortFinset selected)) ∅
    (sortFinset selected) h (le_refl _)

/-- Witness for C3 on a cyclic relation. -/
theorem bfs_closure_terminates_witness :
    bfsAux [(str "a", [str "b"]), (str "b", [str "a"])] 10 ∅ (sortFinset {str "a"})
      = bfs_closure {str "a"} [(str "a", [str "b"]), (str "b", [str "a"])] :=
  bfs_closure_terminates [(str "a", [str "b"]), (str "b", [str "a"])] {str "a"} 10 (by decide)

/-! ### Claims C1, C4 and C5: the extras computation -/

theorem filterMap_fold (l : List Str) (src : Finset Str) :
    l.filterMap (fun d =>
      let dl := foldHost d
      if dl ∈ src then some dl else none)
      = (l.filter (fun d => decide (foldHost d ∈ src))).map foldHost := by
  induction l with
  | nil => rfl
  | cons a l ih =>
    simp only [List.filterMap_cons, List.filter_cons]
    by_cases h : foldHost a ∈ src
    · simp [h, ih]
    · simp [h, ih]

/-- C4: the output is the per-entry image under host folding of the
ascending, duplicate-free enumeration of `closure − selected`, restricted
to entries whose folded candidate has a source: one output line per
qualifying pre-folding extra identifier, in ascending lexical order of
that original identifier.  Two distinct extras folding to the same
candidate each produce their own line, as the concrete instance shows. -/
theorem computeExtras_order_and_multiplicity (closure selected has_source : Finset Str) :
    computeExtras closure selected has_source =
      ((sortFinset (closure \ selected)).filter
        (fun d => decide (foldHost d ∈ has_source))).map foldHost
    ∧ List.Sorted strLe (sortFinset (closure \ selected))
    ∧ (sortFinset (closure \ selected)).Nodup
    ∧ (∀ x, x ∈ sortFinset (closure \ selected) ↔ x ∈ closure ∧ x ∉ selected)
    ∧ computeExtras {str "a", str "a/host"} ∅ {str "a"} = [str "a", str "a"] := by
  refine ⟨filterMap_fold _ _, sortFinset_sorted _, sortFinset_nodup _, ?_, by decide⟩
  intro x
  rw [mem_sortFinset]
  simp [Finset.mem_sdiff]

theorem sortFinset_singleton (d : Str) : sortFinset {d} = [d] := rfl

/-- C5: for an extra ending in the reserved `/host` suffix the candidate is
the identifier with the suffix removed, and the candidate string — not the
original — is emitted exactly when it is source-available; concretely for
`feeds/packages/libffi/host`. -/
theorem host_variant_folding (d : Str) (src : Finset Str) (h : endsW hostSuffix d = true) :
    foldHost d = d.take (d.length - 5)
    ∧ computeExtras {d} ∅ src =
        (if d.take (d.length - 5) ∈ src then [d.take (d.length - 5)] else [])
    ∧ computeExtras {str "feeds/packages/libffi/host"} ∅ {str "feeds/packages/libffi"} =
        [str "feeds/packages/libffi"]
    ∧ computeExtras {str "feeds/packages/libffi/host"} ∅ ∅ = [] := by
  have hf : foldHost d = d.take (d.length - 5) := by unfold foldHost; rw [if_pos h]
  refine ⟨hf, ?_, by decide, by decide⟩
  unfold computeExtras
  rw [Finset.sdiff_empty, sortFinset_singleton]
  simp only [List.filterMap_cons, List.filterMap_nil]
  by_cases hs : d.take (d.length - 5) ∈ src
  · simp [hf, hs]
  · simp [hf, hs]

/-- Witness for C5 at `a/host`. -/
theorem host_variant_folding_witness :
    foldHost (str "a/host") = (str "a/host").take ((str "a/host").length - 5) :=
  (host_variant_folding (str "a/host") {str "a"} (by decide)).1

/-- C1 counterexample: with relation `a → a/host`, selected `{a}` and
source-available `{a}`, the loop prints `a`, which is in the selected
set — the printed folded candidate of the extra `a/host`. -/
theorem extras_printed_in_selected_cex :
    computeExtras (bfs_closure {str "a"} [(str "a", [str "a/host"])]) {str "a"} {str "a"}
      = [str "a"]
    ∧ str "a" ∈ ({str "a"} : Finset Str) := by decide

/-- C1 amended: a printed identifier is never in the selected set unless it
is the host-folded candidate of an extra (pre-folding) identifier; the
pre-folding identifiers the loop ranges over are themselves never in the
selected set. -/
theorem computeExtras_printed_not_selected_unless_host (closure selected src : Finset Str)
    (dl : Str) (h : dl ∈ computeExtras closure selected src) :
    dl ∉ selected ∨
      ∃ d, d ∈ closure ∧ d ∉ selected ∧ endsW hostSuffix d = true ∧
        d.take (d.length - 5) = dl := by
  unfold computeExtras at h
  rcases List.mem_filterMap.mp h with ⟨d, hd, heq⟩
  have hd2 : d ∈ closure ∧ d ∉ selected := by
    have := (mem_sortFinset _ d).mp hd
    simpa [Finset.mem_sdiff] using this
  simp only [] at heq
  by_cases hin : foldHost d ∈ src
  · rw [if_pos hin] at heq
    have hfold : foldHost d = dl := Option.some.inj heq
    by_cases hend : endsW hostSuffix d = true
    · refine Or.inr ⟨d, hd2.1, hd2.2, hend, ?_⟩
      rw [← hfold]
      unfold foldHost
      rw [if_pos hend]
    · refine Or.inl ?_
      have hid : foldHost d = d := by unfold foldHost; rw [if_neg hend]
      rw [← hfold, hid]
      exact hd2.2
  · rw [if_neg hin] at heq
    exact absurd heq (by simp)

/-- Witness for the amended C1. -/
theorem computeExtras_printed_not_selected_unless_host_witness :
    str "b" ∉ (∅ : Finset Str) ∨
      ∃ d, d ∈ ({str "b"} : Finset Str) ∧ d ∉ (∅ : Finset Str) ∧
        endsW hostSuffix d = true ∧ d.take (d.length - 5) = str "b" :=
  computeExtras_printed_not_selected_unless_host {str "b"} ∅ {str "b"} (str "b") (by decide)

/-! ### Claims C6, C7 and C9: the dependency-dump parser -/

theorem parse_step_lookup (acc : Dict × Finset Str) (l : Str) (node : Str) :
    dictLookup (parseDepsStep acc l).1 node = lastDepsStep node (dictLookup acc.1 node) l := by
  unfold parseDepsStep lastDepsStep
  by_cases hsel : listStarts selMarker (trimC l) = true
  · simp [hsel]
  · simp only [Bool.not_eq_true] at hsel
    by_cases hdeps : listStarts depsMarker (trimC l) = true
    · simp only [hsel, hdeps, Bool.false_eq_true, if_false, if_true]
      cases hsplit : splitColonOnceC ((trimC l).drop 5) with
      | nil => rfl
      | cons a tl =>
        cases tl with
        | nil => rfl
        | cons b tl2 =>
          cases tl2 with
          | nil => simp only [dictLookup_cons]
          | cons c tl3 => rfl
    · simp only [Bool.not_eq_true] at hdeps
      simp [hsel, hdeps]

theorem parse_deps_lookup_aux (node : Str) :
    ∀ (lines : List Str) (acc : Dict × Finset Str),
      dictLookup ((lines.foldl parseDepsStep acc).1) node =
        lines.foldl (lastDepsStep node) (dictLookup acc.1 node) := by
  intro lines
  induction lines with
  | nil => intro _; rfl
  | cons l ls ih =>
    intro acc
    simp only [List.foldl_cons]
    rw [ih (parseDepsStep acc l), parse_step_lookup]

/-- C6: the dependency set `parse_deps` records for a node is the
dependency list of the last well-formed `DEPS:` line for that node;
earlier lines for the same node contribute nothing, as the concrete
two-line instance shows. -/
theorem parse_deps_last_write_wins :
    (∀ (lines : List Str) (node : Str),
      dictLookup (parse_deps lines).1 node = lastDepsFor node lines)
    ∧ dictLookup (parse_deps [str "DEPS:x:a b", str "DEPS:x:c"]).1 (str "x")
        = some [str "c"] := by
  refine ⟨?_, by decide⟩
  intro lines node
  unfold parse_deps lastDepsFor
  exact parse_deps_lookup_aux node lines ([], ∅)

/-- C7: a line that does not carry either marker after stripping, or a
`DEPS:` line whose remainder does not colon-split into exactly two parts,
leaves both the dependency mapping and the selected set unchanged (the
parser, a total function, skips it silently). -/
theorem parse_deps_skips_malformed (acc : Dict × Finset Str) (rawLine : Str)
    (h1 : listStarts selMarker (trimC rawLine) = false)
    (h2 : listStarts depsMarker (trimC rawLine) = false ∨
          (splitColonOnceC ((trimC rawLine).drop 5)).length ≠ 2) :
    parseDepsStep acc rawLine = acc := by
  unfold parseDepsStep
  simp only [h1, Bool.false_eq_true, if_false]
  rcases h2 with h2 | h2
  · simp [h2]
  · by_cases hdeps : listStarts depsMarker (trimC rawLine) = true
    · simp only [hdeps, if_true]
      cases hsplit : splitColonOnceC ((trimC rawLine).drop 5) with
      | nil => rfl
      | cons a tl =>
        cases tl with
        | nil => rfl
        | cons b tl2 =>
          cases tl2 with
          | nil => exact absurd (by rw [hsplit]; rfl) h2
          | cons c tl3 => rfl
    · simp only [Bool.not_eq_true] at hdeps
      simp [hdeps]

/-- Witness for C7 on the malformed line `DEPS:x`. -/
theorem parse_deps_skips_malformed_witness :
    parseDepsStep ([(str "a", [str "b"])], {str "s"}) (str "DEPS:x")
      = ([(str "a", [str "b"])], {str "s"}) :=
  parse_deps_skips_malformed ([(str "a", [str "b"])], {str "s"}) (str "DEPS:x")
    (by decide) (by decide)

theorem listStarts_append (p s : Str) : listStarts p (p ++ s) = true := by
  induction p with
  | nil => rfl
  | cons c cs ih => simp [listStarts, ih]

/-- C9: a line `DEPS:<node>:` with nothing after the second colon is
well-formed — its colon-split has exactly two parts — so `parse_deps`
records `<node>` with the empty dependency set, and that empty record
shadows (overwrites) any earlier record for `<node>`. -/
theorem deps_line_empty_deps (d : Dict) (sel : Finset Str) (node : Str)
    (h0 : trimC (depsMarker ++ (node ++ [':'])) = depsMarker ++ (node ++ [':']))
    (h1 : listStarts selMarker (depsMarker ++ (node ++ [':'])) = false)
    (h2 : breakAtColon (node ++ [':']) = some (node, [])) :
    parseDepsStep (d, sel) (depsMarker ++ (node ++ [':'])) = ((node, []) :: d, sel)
    ∧ dictLookup ((node, []) :: d) node = some [] := by
  constructor
  · unfold parseDepsStep
    simp only [h0, h1, Bool.false_eq_true, if_false, listStarts_append, if_true]
    have hdrop : (depsMarker ++ (node ++ [':'])).drop 5 = node ++ [':'] := by
      have h5 : depsMarker.length = 5 := rfl
      rw [← h5, List.drop_left]
    rw [hdrop]
    unfold splitColonOnceC
    rw [h2]
    rfl
  · rw [dictLookup_cons]
    simp

/-- Witness for C9: `DEPS:x:` overwrites a previous non-empty record for `x`. -/
theorem deps_line_empty_deps_witness :
    parseDepsStep ([(str "x", [str "a"])], ∅) (depsMarker ++ (str "x" ++ [':']))
        = ((str "x", []) :: [(str "x", [str "a"])], ∅)
    ∧ dictLookup ((str "x", []) :: [(str "x", [str "a"])]) (str "x") = some [] :=
  deps_line_empty_deps [(str "x", [str "a"])] ∅ (str "x") (by decide) (by decide) (by decide)

/-! ### Claims C8 and C10: the metadata parser -/

theorem listStarts_eq_append : ∀ {p s : Str}, listStarts p s = true → ∃ t, s = p ++ t := by
  intro p
  induction p with
  | nil => intro s _; exact ⟨s, rfl⟩
  | cons c ps ih =>
    intro s h
    cases s with
    | nil => simp [listStarts] at h
    | cons d ds =>
      simp only [listStarts, Bool.and_eq_true, beq_iff_eq] at h
      obtain ⟨t, ht⟩ := ih h.2
      exact ⟨t, by simp [ht, h.1]⟩

theorem listStarts_take_of_append : ∀ (a : Str) {p t : Str},
    listStarts p (a ++ t) = true → listStarts (p.take a.length) a = true := by
  intro a
  induction a with
  | nil => intro p t _; rfl
  | cons c as iha =>
    intro p t h
    cases p with
    | nil => rfl
    | cons q qs =>
      simp only [List.cons_append, listStarts, Bool.and_eq_true] at h
      simp only [List.length_cons, List.take_succ_cons, listStarts, Bool.and_eq_true]
      exact ⟨h.1, iha h.2⟩

/-- The two metadata patterns are mutually exclusive: a line matching
`Source: (\S+)` cannot also match the makefile-context pattern. -/
theorem matchSource_makefile_none {line : Str} (h : matchSource line = true) :
    matchSourceMakefile line = none := by
  have hstart : listStarts srcLead line = true := by
    unfold matchSource at h
    rw [Bool.and_eq_true] at h
    exact h.1
  obtain ⟨t, ht⟩ := listStarts_eq_append hstart
  have hmk : listStarts mkLead line = false := by
    cases hc : listStarts mkLead line with
    | false => rfl
    | true =>
      exfalso
      rw [ht] at hc
      exact absurd (listStarts_take_of_append srcLead hc) (by decide)
  unfold matchSourceMakefile
  simp [hmk]

/-- First-hit choice on options (`m.group` style fallback). -/
def optOr (a b : Option Str) : Option Str :=
  match a with
  | some x => some x
  | none => b

theorem optOr_assoc (a b c : Option Str) : optOr (optOr a b) c = optOr a (optOr b c) := by
  cases a <;> rfl

theorem optOr_none (a : Option Str) : optOr a none = a := by
  cases a <;> rfl

theorem findSome?_singleton (f : Str → Option Str) (l : Str) :
    [l].findSome? f = f l := by
  cases h : f l <;> simp [List.findSome?_cons, h]

theorem findSome?_append (f : Str → Option Str) (l1 l2 : List Str) :
    (l1 ++ l2).findSome? f = optOr (l1.findSome? f) (l2.findSome? f) := by
  induction l1 with
  | nil => simp [optOr]
  | cons a l1 ih =>
    cases h : f a with
    | some b => simp [List.findSome?_cons, h, optOr]
    | none => simp [List.findSome?_cons, h, optOr, ih]

theorem ctx_cons (l : Str) (l1 : List Str) (c : Option Str) :
    optOr ((l :: l1).reverse.findSome? matchSourceMakefile) c =
      optOr (l1.reverse.findSome? matchSourceMakefile) (optOr (matchSourceMakefile l) c) := by
  rw [List.reverse_cons, findSome?_append, findSome?_singleton, optOr_assoc]

theorem pwsStep_snd (acc : Finset Str × Option Str) (l : Str) :
    (pwsStep acc l).2 = optOr (matchSourceMakefile l) acc.2 := by
  obtain ⟨s, c⟩ := acc
  unfold pwsStep
  cases hm : matchSourceMakefile l with
  | some name => rfl
  | none =>
    by_cases hs : matchSource l = true
    · simp only [hs, if_true]
      cases c <;> rfl
    · simp only [Bool.not_eq_true] at hs
      simp [hs, optOr]

/-- The running `cur` after any fold is the most recent matched context. -/
theorem pws_foldl_snd : ∀ (ls : List Str) (acc : Finset Str × Option Str),
    (ls.foldl pwsStep acc).2 =
      optOr (ls.reverse.findSome? matchSourceMakefile) acc.2 := by
  intro ls
  induction ls with
  | nil => intro acc; rfl
  | cons l ls ih =>
    intro acc
    simp only [List.foldl_cons]
    rw [ih (pwsStep acc l), pwsStep_snd, List.reverse_cons, findSome?_append,
      findSome?_singleton, optOr_assoc]

theorem exists_split_cons (l : Str) (ls : List Str) (P : List Str → Str → Prop) :
    (∃ l1 line l2, l :: ls = l1 ++ line :: l2 ∧ P l1 line) ↔
      (P [] l ∨ ∃ l1 line l2, ls = l1 ++ line :: l2 ∧ P (l :: l1) line) := by
  constructor
  · rintro ⟨l1, line, l2, heq, hp⟩
    cases l1 with
    | nil =>
      rw [List.nil_append] at heq
      injection heq with h1 h2
      exact Or.inl (by rw [h1]; exact hp)
    | cons a l1' =>
      rw [List.cons_append] at heq
      injection heq with h1 h2
      subst h1
      exact Or.inr ⟨l1', line, l2, h2, hp⟩
  · rintro (hp | ⟨l1, line, l2, heq, hp⟩)
    · exact ⟨[], l, ls, rfl, hp⟩
    · exact ⟨l :: l1, line, l2, by rw [List.cons_append, heq], hp⟩

/-- Membership in the accumulated source set after any fold: `x` was either
there already, or some `Source:` line was processed while the most recent
context (starting from `c`) named `x`. -/
theorem pws_foldl_mem : ∀ (ls : List Str) (s : Finset Str) (c : Option Str) (x : Str),
    x ∈ (ls.foldl pwsStep (s, c)).1 ↔
      x ∈ s ∨ ∃ l1 line l2, ls = l1 ++ line :: l2 ∧ matchSource line = true ∧
        optOr (l1.reverse.findSome? matchSourceMakefile) c = some x := by
  intro ls
  induction ls with
  | nil =>
    intro s c x
    simp only [List.foldl_nil]
    constructor
    · intro h; exact Or.inl h
    · rintro (h | ⟨l1, line, l2, heq, _, _⟩)
      · exact h
      · exfalso; cases l1 <;> simp at heq
  | cons l ls ih =>
    intro s c x
    simp only [List.foldl_cons]
    rw [exists_split_cons l ls (fun l1 line => matchSource line = true ∧
      optOr (l1.reverse.findSome? matchSourceMakefile) c = some x)]
    simp only [ctx_cons, List.reverse_nil, List.findSome?_nil]
    cases hm : matchSourceMakefile l with
    | some name =>
      have hstep : pwsStep (s, c) l = (s, some name) := by unfold pwsStep; rw [hm]
      have hnosrc : ¬ matchSource l = true := by
        intro hq
        rw [matchSource_makefile_none hq] at hm
        exact Option.noConfusion hm
      rw [hstep, ih]
      simp only [hnosrc, Bool.false_eq_true, false_and, false_or, optOr]
    | none =>
      by_cases hsrc0 : matchSource l = true
      · cases c with
        | some cur =>
          have hstep : pwsStep (s, some cur) l = (insert cur s, some cur) := by
            unfold pwsStep; rw [hm]; simp [hsrc0]
          rw [hstep, ih]
          simp only [hsrc0, true_and, optOr, Finset.mem_insert, Option.some.injEq]
          constructor
          · rintro ((heq | hs) | hrest)
            · exact Or.inr (Or.inl heq.symm)
            · exact Or.inl hs
            · exact Or.inr (Or.inr hrest)
          · rintro (hs | heq | hrest)
            · exact Or.inl (Or.inr hs)
            · exact Or.inl (Or.inl heq.symm)
            · exact Or.inr hrest
        | none =>
          have hstep : pwsStep (s, none) l = (s, none) := by
            unfold pwsStep; rw [hm]; simp [hsrc0]
          rw [hstep, ih]
          simp only [hsrc0, true_and, optOr, false_or]
          constructor
          · rintro (hs | hrest)
            · exact Or.inl hs
            · exact Or.inr (Or.inr hrest)
          · rintro (hs | hfalse | hrest)
            · exact Or.inl hs
            · exact Option.noConfusion hfalse
            · exact Or.inr hrest
      · have hsrc : matchSource l = false := by simpa using hsrc0
        have hstep : pwsStep (s, c) l = (s, c) := by
          unfold pwsStep; rw [hm]; simp [hsrc]
        rw [hstep, ih]
        simp only [hsrc, Bool.false_eq_true, false_and, false_or, optOr]

/-- C8: a `Source:` declaration line adds a package name exactly when a
context line precedes it, the name added being that of the most recent
`Source-Makefile:` context line; the context persists across all other
lines (the fold-state equation) and the two patterns are mutually
exclusive. -/
theorem source_line_adds_most_recent_context :
    (∀ line, matchSource line = true → matchSourceMakefile line = none)
    ∧ (∀ (lines : List Str) (x : Str),
        x ∈ packages_with_source lines ↔
          ∃ l1 line l2, lines = l1 ++ line :: l2 ∧ matchSource line = true ∧
            l1.reverse.findSome? matchSourceMakefile = some x)
    ∧ (∀ lines : List Str,
        (lines.foldl pwsStep (∅, none)).2 =
          lines.reverse.findSome? matchSourceMakefile) := by
  refine ⟨fun _ h => matchSource_makefile_none h, ?_, ?_⟩
  · intro lines x
    unfold packages_with_source
    rw [pws_foldl_mem lines ∅ none x]
    simp only [Finset.not_mem_empty, false_or, optOr_none]
  · intro lines
    rw [pws_foldl_snd, optOr_none]

/-- Witness for C8: a `Source:` line triggers only the source pattern, and a
concrete two-line stream registers the context's package. -/
theorem source_line_adds_most_recent_context_witness :
    matchSourceMakefile (str "Source: url") = none :=
  source_line_adds_most_recent_context.1 (str "Source: url") (by decide)

/-- C10: `packages_with_source` does not strip its lines: a line beginning
with whitespace fails both start-anchored patterns and is ignored — no
context change and no addition to the source set. -/
theorem pws_ignores_leading_whitespace (S : Finset Str) (c : Option Str) (cw : Char)
    (rest : Str) (hw : wsChar cw = true) :
    matchSourceMakefile (cw :: rest) = none
    ∧ matchSource (cw :: rest) = false
    ∧ pwsStep (S, c) (cw :: rest) = (S, c) := by
  have hS : ('S' == cw) = false := by
    simp only [wsChar, Char.isWhitespace, Bool.or_eq_true, decide_eq_true_eq] at hw
    have hd : cw = ' ' ∨ cw = '\t' ∨ cw = '\r' ∨ cw = '\n' := by tauto
    rcases hd with h | h | h | h <;> subst h <;> decide
  have h1 : listStarts mkLead (cw :: rest) = false := by
    rw [show mkLead = 'S' :: str "ource-Makefile: package/" from rfl]
    simp [listStarts, hS]
  have h2 : listStarts srcLead (cw :: rest) = false := by
    rw [show srcLead = 'S' :: str "ource: " from rfl]
    simp [listStarts, hS]
  have hmsm : matchSourceMakefile (cw :: rest) = none := by
    unfold matchSourceMakefile
    simp [h1]
  have hmsrc : matchSource (cw :: rest) = false := by
    unfold matchSource
    simp [h2]
  exact ⟨hmsm, hmsrc, by unfold pwsStep; rw [hmsm]; simp [hmsrc]⟩

/-- Witness for C10 on a `Source:` line carrying one leading space. -/
theorem pws_ignores_leading_whitespace_witness :
    matchSourceMakefile (' ' :: str "Source: x") = none
    ∧ matchSource (' ' :: str "Source: x") = false
    ∧ pwsStep (∅, some (str "p")) (' ' :: str "Source: x") = (∅, some (str "p")) :=
  pws_ignores_leading_whitespace ∅ (some (str "p")) ' ' (str "Source: x") (by decide)

/-! ### End-to-end scenario from the specification -/

/-- The spec's end-to-end scenario: `SELECTED:a`, `DEPS:a:b c`, `DEPS:b:d`,
metadata declaring sources for `b` and `d` but not `c`, gives closure
`{a,b,c,d}` and output `b`, `d`. -/
theorem end_to_end_scenario :
    bfs_closure (parse_deps [str "SELECTED:a", str "DEPS:a:b c", str "DEPS:b:d"]).2
        (parse_deps [str "SELECTED:a", str "DEPS:a:b c", str "DEPS:b:d"]).1
      = {str "a", str "b", str "c", str "d"}
    ∧ computeExtras
        (bfs_closure (parse_deps [str "SELECTED:a", str "DEPS:a:b c", str "DEPS:b:d"]).2
          (parse_deps [str "SELECTED:a", str "DEPS:a:b c", str "DEPS:b:d"]).1)
        (parse_deps [str "SELECTED:a", str "DEPS:a:b c", str "DEPS:b:d"]).2
        (packages_with_source [str "Source-Makefile: package/b/Makefile", str "Source: url",
          str "Source-Makefile: package/d/Makefile", str "Source: url2"])
      = [str "b", str "d"] := by decide
